import Mathlib

/-!
Verification of the Othello engine in `src/game.py` (repository
`aslik04/Othello-2D-Game`).

The Python board is an 8×8 list of lists whose cells hold `None`, `0`
(`Symbol.BLACK`) or `1` (`Symbol.WHITE`).  For the in-bounds reasoning we
embed a board as a total function `Int → Int → Option Nat`; every read the
Python code performs during the directional walks is guarded by
`0 <= row < 8 and 0 <= col < 8`, so on 8×8 boards the two views coincide.
A second, list-of-lists embedding with genuine Python indexing semantics
(negative-index wrap-around, `IndexError` for indices outside `[-len, len)`)
is given further below to settle the out-of-range behaviour of
`Player.pieces_flipped`.
-/

namespace Othello

/-- The enum `class Symbol(IntEnum): BLACK = 0; WHITE = 1` (src/game.py, lines 7-9). -/
inductive Symbol : Type where
  | BLACK : Symbol
  | WHITE : Symbol
deriving DecidableEq, Repr

/-- The numeric value of a `Symbol` member (`Symbol.BLACK.value = 0`,
`Symbol.WHITE.value = 1`). -/
def Symbol.value : Symbol → Nat
  | .BLACK => 0
  | .WHITE => 1

/-- The opposite colour `Symbol(1 - s.value)`, as computed at
src/game.py lines 113 and 220. -/
def Symbol.other : Symbol → Symbol
  | .BLACK => .WHITE
  | .WHITE => .BLACK

/-- A board as a total function on integer coordinates.  The Python value
`board[r][c]` of type `int | None` becomes `b r c : Option Nat`. -/
def BoardF : Type := Int → Int → Option Nat

instance : Inhabited BoardF := ⟨fun _ _ => none⟩

/-- The in-bounds test `0 <= row < 8 and 0 <= col < 8` used throughout
`Player.pieces_flipped` (src/game.py lines 67, 73, 79). -/
def inB (row col : Int) : Prop :=
  0 ≤ row ∧ row < 8 ∧ 0 ≤ col ∧ col < 8

instance (row col : Int) : Decidable (inB row col) := by
  unfold inB; infer_instance

/-- The direction list `dirs` of `Player.pieces_flipped`
(src/game.py lines 56-60). -/
def dirs : List (Int × Int) :=
  [(-1, -1), (-1, 0), (-1, 1),
   (0, -1), (0, 1),
   (1, -1), (1, 0), (1, 1)]

/-- The `while` loop of `Player.pieces_flipped` (src/game.py lines 73-76):
starting at `(row, col)`, collect cells while they are in bounds and hold the
opponent's value, and return the collected run together with the final
position of the walk.  The loop is modelled with explicit fuel; fuel 8
suffices because a walk that starts in bounds and moves by a fixed nonzero
compass direction leaves the 8×8 board after at most 8 steps
(`collectRun_fuel_enough` below). -/
def collectRun (b : BoardF) (opp : Nat) (dr dc : Int) :
    Nat → Int → Int → List (Int × Int) × Int × Int
  | 0, row, col => ([], row, col)
  | fuel + 1, row, col =>
    if inB row col ∧ b row col = some opp then
      let rest := collectRun b opp dr dc fuel (row + dr) (col + dc)
      ((row, col) :: rest.1, rest.2)
    else ([], row, col)

/-- The body of the `for dr, dc in dirs` loop of `Player.pieces_flipped`
(src/game.py lines 62-80): the contribution of one direction to the flip
set.  The two `continue` guards (walk start out of bounds, first cell not
the opponent) yield `∅`, and the collected run is kept only when the walk
stopped on an in-bounds cell of the mover's own value. -/
def dirFlips (b : BoardF) (r c : Int) (player_value : Nat) (dr dc : Int) :
    Finset (Int × Int) :=
  let opp := 1 - player_value
  let row := r + dr
  let col := c + dc
  if ¬ inB row col then ∅
  else if b row col ≠ some opp then ∅
  else
    let res := collectRun b opp dr dc 8 row col
    if inB res.2.1 res.2.2 ∧ b res.2.1 res.2.2 = some player_value then
      res.1.toFinset
    else ∅

/-- The method `Player.pieces_flipped(board, r, c, player_value)`
(src/game.py lines 40-81): all opponent pieces flipped by playing `(r, c)`.
An occupied target returns the empty set; otherwise the flip sets of the 8
directions are accumulated (`flips.update(line)`). -/
def pieces_flipped (b : BoardF) (r c : Int) (player_value : Nat) :
    Finset (Int × Int) :=
  if b r c ≠ none then ∅
  else dirs.foldl (fun acc d => acc ∪ dirFlips b r c player_value d.1 d.2) ∅

/-- The method `Player.get_valid_moves(board, symbol)` (src/game.py lines 23-38): the
dict comprehension over `r, c in range(8) × range(8)`, keeping the empty
cells whose flip set is non-empty (Python set truthiness).  The dict is
modelled as its association list in insertion (row-major) order. -/
def get_valid_moves (b : BoardF) (symbol : Symbol) :
    List ((Int × Int) × Finset (Int × Int)) :=
  let player_value := symbol.value
  (List.range 8).flatMap (fun (r : Nat) =>
    (List.range 8).filterMap (fun (c : Nat) =>
      if b ((r : Nat) : Int) ((c : Nat) : Int) = none then
        let flipped := pieces_flipped b ((r : Nat) : Int) ((c : Nat) : Int) player_value
        if flipped ≠ ∅ then
          some ((((r : Nat) : Int), ((c : Nat) : Int)), flipped)
        else none
      else none))

/-- A single assignment `board[r][c] = v` on a function board (used for
in-bounds coordinates only, which is how `Game.move` writes). -/
def setCell (b : BoardF) (r c : Int) (v : Option Nat) : BoardF :=
  fun x y => if x = r ∧ y = c then v else b x y

/-- The effect of the loop `for r, c in flipped: self.board[r][c] = self.current`
(src/game.py lines 213-214).  Every cell of `flipped` receives the same value,
so the iteration order of the Python set is irrelevant and the loop's result
is this pointwise update. -/
def applyFlips (b : BoardF) (flipped : Finset (Int × Int)) (v : Nat) : BoardF :=
  fun x y => if (x, y) ∈ flipped then some v else b x y

/-- The 64 coordinates of the 8×8 board. -/
def grid : Finset (Int × Int) :=
  Finset.Icc (0 : Int) 7 ×ˢ Finset.Icc (0 : Int) 7

/-- The count `sum(cell == v for ...)` over all 64 cells, as in `Game._find_winner`
(src/game.py lines 226-228). -/
def countColor (b : BoardF) (v : Nat) : Nat :=
  (grid.filter (fun p => b p.1 p.2 = some v)).card

/-- The number of non-empty cells of the board. -/
def countOccupied (b : BoardF) : Nat :=
  (grid.filter (fun p => b p.1 p.2 ≠ none)).card

/-- The method `Game._find_winner` (src/game.py lines 224-232): `None` on equal counts,
else the colour with the strictly greater count. -/
def find_winner (b : BoardF) : Option Symbol :=
  let black := countColor b Symbol.BLACK.value
  let white := countColor b Symbol.WHITE.value
  if black = white then none
  else if black > white then some Symbol.BLACK else some Symbol.WHITE

/-- The state owned by `Game` (src/game.py lines 194-206).  The `players`
dict maps colours to `Player` objects driving the I/O loop; it never affects
`Game.move`, `Game._find_winner` or the board, so it is not part of the
embedded state. -/
structure Game : Type where
  board : BoardF
  current : Symbol
  game_over : Bool
  winner : Option Symbol
  moves : Nat

/-- The constructor `Game.__init__` (src/game.py lines 194-206): empty board except for the
four centre cells — BLACK at (3,3) and (4,4), WHITE at (3,4) and (4,3). -/
def Game.init (starting_player : Symbol) : Game where
  board := fun r c =>
    if r = 3 ∧ c = 3 then some Symbol.BLACK.value
    else if r = 3 ∧ c = 4 then some Symbol.WHITE.value
    else if r = 4 ∧ c = 3 then some Symbol.WHITE.value
    else if r = 4 ∧ c = 4 then some Symbol.BLACK.value
    else none
  current := starting_player
  game_over := false
  winner := none
  moves := 0

/-- The method `Game.move(row, col, flipped)` (src/game.py lines 208-222): write the
current colour to the target and to every flipped cell, increment the move
count, and either finish the game (count 60) or hand the turn over.  (The
Python code stores the `Symbol` member itself in the board; as an `IntEnum`
it compares equal to its `.value`, which is what the embedding stores.) -/
def Game.move (g : Game) (row col : Int) (flipped : Finset (Int × Int)) :
    Game :=
  let board1 := setCell g.board row col (some g.current.value)
  let board2 := applyFlips board1 flipped g.current.value
  let moves := g.moves + 1
  if moves = 60 then
    { board := board2, current := g.current, game_over := true,
      winner := find_winner board2, moves := moves }
  else
    { board := board2, current := g.current.other, game_over := g.game_over,
      winner := g.winner, moves := moves }

/-- A legal move for `player_value` on `b`: an in-range coordinate of an
empty cell with a non-empty flip set — exactly the membership condition of
the `get_valid_moves` dict. -/
def legalMoveB (b : BoardF) (player_value : Nat) (r c : Int) : Bool :=
  decide (inB r c) && decide (b r c = none) &&
    decide (pieces_flipped b r c player_value ≠ ∅)

/-- Repeatedly apply `Game.move`, each time with a legal move for the
then-current colour and with the flip set the Legality Engine computes for
it; `none` when some listed move is illegal at its turn. -/
def playLegal (g : Game) : List (Int × Int) → Option Game
  | [] => some g
  | (r, c) :: rest =>
    if legalMoveB g.board g.current.value r c then
      playLegal (g.move r c (pieces_flipped g.board r c g.current.value)) rest
    else none

/-! ### A first-order view of boards, used to exhibit a concrete full game

A function board built by 60 nested updates is expensive to evaluate inside
the kernel, so the concrete 60-move game below is presented as a trace that
carries each intermediate position as a literal 8×8 list; `checkTrace`
validates every step against the literals, and `checkTrace_playLegal` turns
a validated trace into a `playLegal` run. -/

/-- Cell decoding for compact board literals: 1 is Black, 2 is White,
anything else is empty. -/
def decCell : Nat → Option Nat
  | 1 => some 0
  | 2 => some 1
  | _ => none

def dec8 (rows : List (List Nat)) : List (List (Option Nat)) :=
  rows.map (fun r => r.map decCell)

/-- The starting rows: the board `Game.__init__` builds. -/
def startRows : List (List (Option Nat)) :=
  dec8 [[0,0,0,0,0,0,0,0],[0,0,0,0,0,0,0,0],[0,0,0,0,0,0,0,0],[0,0,0,1,2,0,0,0],
        [0,0,0,2,1,0,0,0],[0,0,0,0,0,0,0,0],[0,0,0,0,0,0,0,0],[0,0,0,0,0,0,0,0]]

/-- The colour swap of the symmetry property: Black and White cells are
exchanged, empty cells are preserved. -/
def colorSwap (b : BoardF) : BoardF :=
  fun x y =>
    match b x y with
    | none => none
    | some 0 => some 1
    | some 1 => some 0
    | some v => some v

/-! ### C8: the Medium strategy (`Bot._medium_strategy`, src/game.py 131-189)

`random.choice` is modelled by an oracle `pick`; the theorems quantify over
every oracle that returns an element of the non-empty list it is given,
which covers every possible outcome of the randomised tie-breaking.  The
Python dict `valid_moves` is its association list, and `valid_moves[move]`
is `dictGet`. -/

def dictGet (vm : List ((Int × Int) × Finset (Int × Int))) (move : Int × Int) :
    Finset (Int × Int) :=
  ((vm.find? (fun kv => kv.1 = move)).map Prod.snd).getD ∅

/-- The list `CORNERS = [(0, 0), (0, 7), (7, 0), (7, 7)]` (src/game.py line 133). -/
def CORNERS : List (Int × Int) := [(0, 0), (0, 7), (7, 0), (7, 7)]

/-- The list `EDGES` (src/game.py line 174); `range(1, 7)` is modelled as
`range 6` shifted by one. -/
def EDGES : List (Int × Int) :=
  (List.range 8).map (fun (c : Nat) => ((0 : Int), ((c : Nat) : Int)))
  ++ (List.range 8).map (fun (r : Nat) => (((r : Nat) : Int), (0 : Int)))
  ++ (List.range 6).map (fun (c : Nat) => ((7 : Int), ((c : Nat) : Int) + 1))
  ++ (List.range 6).map (fun (r : Nat) => (((r : Nat) : Int) + 1, (7 : Int)))

/-- The `pseudo_cand` set of a move (src/game.py lines 149-157): in-bounds
empty neighbours of the affected cells.  The Python comprehension filters
while generating; since the filter only looks at the generated sum, this is
the image filtered afterwards. -/
def pseudo_cand (board : BoardF) (affected : Finset (Int × Int)) :
    Finset (Int × Int) :=
  ((affected ×ˢ dirs.toFinset).image
      (fun q => (q.1.1 + q.2.1, q.1.2 + q.2.2))).filter
    (fun p => inB p.1 p.2 ∧ board p.1 p.2 = none)

/-- The flag `gives_corner` for one candidate move (src/game.py lines 161-165). -/
def gives_corner (board : BoardF) (human_value : Nat)
    (kv : (Int × Int) × Finset (Int × Int)) : Bool :=
  CORNERS.any (fun corner =>
    decide (corner ∈ pseudo_cand board ({kv.1} ∪ kv.2))
    && decide (pieces_flipped board corner.1 corner.2 human_value ≠ ∅))

/-- The method `Bot._medium_strategy` (src/game.py lines 131-189), with `pick` for
`random.choice`. -/
def medium_strategy (pick : List (Int × Int) → Int × Int) (board : BoardF)
    (human_value : Nat) (vm : List ((Int × Int) × Finset (Int × Int))) :
    (Int × Int) × Finset (Int × Int) :=
  let keys := vm.map Prod.fst
  let valid_corner := CORNERS.filter (fun p => decide (p ∈ keys))
  if valid_corner ≠ [] then
    let move := pick valid_corner
    (move, dictGet vm move)
  else
    let valid_non_corner :=
      (vm.filter (fun kv => ! gives_corner board human_value kv)).map Prod.fst
    if valid_non_corner ≠ [] then
      let move := pick valid_non_corner
      (move, dictGet vm move)
    else
      let valid_edges := EDGES.filter (fun p => decide (p ∈ keys))
      if valid_edges ≠ [] then
        let move := pick valid_edges
        (move, dictGet vm move)
      else
        let possible_moves :=
          vm.map (fun kv => (kv.1, (pseudo_cand board ({kv.1} ∪ kv.2)).card))
        let sorted_possible_moves :=
          possible_moves.mergeSort (fun a b => a.2 ≤ b.2)
        let best_score := (sorted_possible_moves.headD ((0, 0), 0)).2
        let tied := (sorted_possible_moves.filter
          (fun kv => kv.2 = best_score)).map Prod.fst
        let choice := pick tied
        (choice, dictGet vm choice)

/-! ### C2: genuine Python indexing semantics for `Player.pieces_flipped`

`board[i]` on a Python list of length `n` returns element `i` for
`0 ≤ i < n`, wraps to element `n + i` for `-n ≤ i < 0`, and raises
`IndexError` otherwise.  `Except Unit` carries the possible `IndexError`;
every read of the walk is guarded by `0 <= row < 8 and 0 <= col < 8`, but
the initial read `board[r][c]` of `pieces_flipped` is not. -/

def pyIndex (n : Nat) (i : Int) : Option Nat :=
  if 0 ≤ i ∧ i < (n : Int) then some i.toNat
  else if -(n : Int) ≤ i ∧ i < 0 then some (i + (n : Int)).toNat
  else none

def pyGet {α : Type} (xs : List α) (i : Int) : Option α :=
  (pyIndex xs.length i).bind (fun k => xs.get? k)

/-- The read `board[r][c]` with Python semantics: `error` is an `IndexError`. -/
def pyGetCell (b : List (List (Option Nat))) (r c : Int) :
    Except Unit (Option Nat) :=
  match pyGet b r with
  | none => .error ()
  | some row =>
    match pyGet row c with
    | none => .error ()
    | some cell => .ok cell

/-- The `while` walk of `Player.pieces_flipped` under Python indexing; the
bounds test short-circuits before the read, exactly as in
`while 0 <= row < 8 and 0 <= col < 8 and board[row][col] == opponent_value`. -/
def collectRunPy (b : List (List (Option Nat))) (opp : Nat) (dr dc : Int) :
    Nat → Int → Int → Except Unit (List (Int × Int) × Int × Int)
  | 0, row, col => .ok ([], row, col)
  | fuel + 1, row, col =>
    if inB row col then
      match pyGetCell b row col with
      | .error e => .error e
      | .ok cell =>
        if cell = some opp then
          match collectRunPy b opp dr dc fuel (row + dr) (col + dc) with
          | .error e => .error e
          | .ok res => .ok ((row, col) :: res.1, res.2)
        else .ok ([], row, col)
    else .ok ([], row, col)

/-- One direction of `Player.pieces_flipped` under Python indexing. -/
def dirFlipsPy (b : List (List (Option Nat))) (r c : Int) (pv : Nat)
    (dr dc : Int) : Except Unit (Finset (Int × Int)) :=
  let opp := 1 - pv
  let row := r + dr
  let col := c + dc
  if ¬ inB row col then .ok ∅
  else
    match pyGetCell b row col with
    | .error e => .error e
    | .ok cell =>
      if cell ≠ some opp then .ok ∅
      else
        match collectRunPy b opp dr dc 8 row col with
        | .error e => .error e
        | .ok res =>
          if inB res.2.1 res.2.2 then
            match pyGetCell b res.2.1 res.2.2 with
            | .error e => .error e
            | .ok cell2 =>
              if cell2 = some pv then .ok res.1.toFinset else .ok ∅
          else .ok ∅

def unionDirsPy (b : List (List (Option Nat))) (r c : Int) (pv : Nat) :
    List (Int × Int) → Finset (Int × Int) → Except Unit (Finset (Int × Int))
  | [], acc => .ok acc
  | d :: rest, acc =>
    match dirFlipsPy b r c pv d.1 d.2 with
    | .error e => .error e
    | .ok f => unionDirsPy b r c pv rest (acc ∪ f)

/-- The method `Player.pieces_flipped` under Python indexing: the initial read
`board[r][c]` is performed before any bounds check. -/
def pieces_flippedPy (b : List (List (Option Nat))) (r c : Int) (pv : Nat) :
    Except Unit (Finset (Int × Int)) :=
  match pyGetCell b r c with
  | .error e => .error e
  | .ok cell =>
    if cell ≠ none then .ok ∅
    else unionDirsPy b r c pv dirs ∅

/-! ### C1: the Legality Engine against the specification's capture rule

The oracle follows the specification's words: in each compass direction,
take the maximal run of opponent-coloured in-board cells starting one step
from the target; keep it exactly when the cell just after the run lies on
the board and holds the mover's own colour.  A run along a nonzero compass
direction that stays on the 8-wide board has at most 8 cells, so the
maximal run length is the greatest `m ≤ 8` with an opponent run of length
`m`. -/

/-- The cell `k` steps from `(r, c)` in direction `(dr, dc)`. -/
def stepCell (r c dr dc : Int) (k : Nat) : Int × Int :=
  (r + (k : Int) * dr, c + (k : Int) * dc)

/-- Cells `1, …, m` from the target are all on the board and hold the
opponent's colour. -/
def oppRunUpTo (b : BoardF) (r c dr dc : Int) (opp : Nat) (m : Nat) : Prop :=
  ∀ k : Nat, k ≤ m → 1 ≤ k →
    inB (stepCell r c dr dc k).1 (stepCell r c dr dc k).2
    ∧ b (stepCell r c dr dc k).1 (stepCell r c dr dc k).2 = some opp

instance (b : BoardF) (r c dr dc : Int) (opp : Nat) (m : Nat) :
    Decidable (oppRunUpTo b r c dr dc opp m) := by
  unfold oppRunUpTo
  exact Nat.decidableBallLE m _

/-- The length of the maximal opponent run in direction `(dr, dc)`. -/
def runLen (b : BoardF) (r c dr dc : Int) (opp : Nat) : Nat :=
  Nat.findGreatest (oppRunUpTo b r c dr dc opp) 8

/-- The specification's capture set in one direction: the maximal opponent
run, kept when the walk's terminating cell is on the board and the
mover's. -/
def dirCaptureSpec (b : BoardF) (r c dr dc : Int) (pv : Nat) :
    Finset (Int × Int) :=
  let opp := 1 - pv
  let n := runLen b r c dr dc opp
  if inB (stepCell r c dr dc (n + 1)).1 (stepCell r c dr dc (n + 1)).2
      ∧ b (stepCell r c dr dc (n + 1)).1 (stepCell r c dr dc (n + 1)).2
        = some pv then
    ((List.range n).map (fun k => stepCell r c dr dc (k + 1))).toFinset
  else ∅

/-- The specification's capture set: the union of the 8 directions' runs. -/
def captureSpec (b : BoardF) (r c : Int) (pv : Nat) : Finset (Int × Int) :=
  dirs.toFinset.biUnion (fun d => dirCaptureSpec b r c d.1 d.2 pv)

/-- The shape of the 8 compass directions. -/
def unitDir (dr dc : Int) : Prop :=
  (dr = 1 ∨ dr = -1) ∨ (dr = 0 ∧ (dc = 1 ∨ dc = -1))

/-! ### Structural facts about the Legality Engine -/

theorem mem_foldl_union {f : Int × Int → Finset (Int × Int)}
    {l : List (Int × Int)} {p : Int × Int} :
    ∀ {acc : Finset (Int × Int)},
      p ∈ l.foldl (fun acc d => acc ∪ f d) acc ↔ p ∈ acc ∨ ∃ d ∈ l, p ∈ f d := by
  induction l with
  | nil => intro acc; simp
  | cons d rest ih =>
    intro acc
    rw [List.foldl_cons, ih]
    simp only [Finset.mem_union, List.mem_cons]
    constructor
    · rintro (⟨h | h⟩ | ⟨e, he, hp⟩)
      · exact Or.inl h
      · exact Or.inr ⟨d, Or.inl rfl, h⟩
      · exact Or.inr ⟨e, Or.inr he, hp⟩
    · rintro (h | ⟨e, (rfl | he), hp⟩)
      · exact Or.inl (Or.inl h)
      · exact Or.inl (Or.inr hp)
      · exact Or.inr ⟨e, he, hp⟩

theorem mem_collectRun {b : BoardF} {opp : Nat} {dr dc : Int} {p : Int × Int} :
    ∀ {fuel : Nat} {row col : Int},
      p ∈ (collectRun b opp dr dc fuel row col).1 →
      inB p.1 p.2 ∧ b p.1 p.2 = some opp := by
  intro fuel
  induction fuel with
  | zero => intro row col h; simp [collectRun] at h
  | succ n ih =>
    intro row col h
    rw [collectRun] at h
    by_cases hc : inB row col ∧ b row col = some opp
    · rw [if_pos hc] at h
      rcases List.mem_cons.mp h with h | h
      · subst h; exact hc
      · exact ih h
    · rw [if_neg hc] at h
      simp at h

theorem mem_dirFlips {b : BoardF} {r c : Int} {pv : Nat} {dr dc : Int}
    {p : Int × Int} (h : p ∈ dirFlips b r c pv dr dc) :
    inB p.1 p.2 ∧ b p.1 p.2 = some (1 - pv) := by
  unfold dirFlips at h
  simp only at h
  split_ifs at h with h1 h2 h3 <;>
    first
      | exact mem_collectRun (List.mem_toFinset.mp h)
      | simp at h

/-- Every coordinate the Legality Engine reports is an in-bounds cell holding
the opponent's value, and is reported only for an empty target (hence is
distinct from the target). -/
theorem mem_pieces_flipped {b : BoardF} {r c : Int} {pv : Nat} {p : Int × Int}
    (h : p ∈ pieces_flipped b r c pv) :
    inB p.1 p.2 ∧ b p.1 p.2 = some (1 - pv) ∧ b r c = none ∧ p ≠ (r, c) := by
  unfold pieces_flipped at h
  by_cases h0 : b r c ≠ none
  · rw [if_pos h0] at h; simp at h
  · rw [if_neg h0] at h
    push_neg at h0
    rcases mem_foldl_union.mp h with h | ⟨d, _, hp⟩
    · simp at h
    · obtain ⟨hin, hval⟩ := mem_dirFlips hp
      refine ⟨hin, hval, h0, ?_⟩
      intro hpe
      rw [hpe] at hval
      rw [h0] at hval
      cases hval

theorem pieces_flipped_occupied {b : BoardF} {r c : Int} {pv : Nat}
    (h : b r c ≠ none) : pieces_flipped b r c pv = ∅ := by
  unfold pieces_flipped
  rw [if_pos h]

/-! ### C10: the frame of `Game.move` -/

/-- C10: `Game.move` with target `(row, col)` and capture set `flipped`
leaves every board cell other than the target and the members of `flipped`
exactly as it was: the target and the captured cells are the only cells the
move writes. -/
theorem C10_move_frame (g : Game) (row col : Int) (flipped : Finset (Int × Int))
    (x y : Int) (ht : (x, y) ≠ (row, col)) (hf : (x, y) ∉ flipped) :
    (g.move row col flipped).board x y = g.board x y := by
  have hxy : ¬ (x = row ∧ y = col) := by
    intro ⟨h1, h2⟩; exact ht (by rw [h1, h2])
  unfold Game.move
  dsimp only
  split_ifs <;> simp [applyFlips, setCell, hf, hxy]

theorem C10_move_frame_witness :
    (((3 : Int), (3 : Int)) ≠ ((2 : Int), (4 : Int))
      ∧ ((3 : Int), (3 : Int)) ∉ ({((3 : Int), (4 : Int))} : Finset (Int × Int)))
    ∧ ((Game.init Symbol.BLACK).move 2 4 {((3 : Int), (4 : Int))}).board 3 3
        = (Game.init Symbol.BLACK).board 3 3 :=
  ⟨⟨by decide, by decide⟩,
   C10_move_frame (Game.init Symbol.BLACK) 2 4 {((3 : Int), (4 : Int))} 3 3
     (by decide) (by decide)⟩

/-! ### C5: the effect of `Game.move` -/

theorem mem_get_valid_moves_keys (b : BoardF) (s : Symbol) (rc : Int × Int) :
    rc ∈ (get_valid_moves b s).map Prod.fst ↔
      inB rc.1 rc.2 ∧ b rc.1 rc.2 = none
        ∧ pieces_flipped b rc.1 rc.2 s.value ≠ ∅ := by
  unfold get_valid_moves
  simp only [List.mem_map, List.mem_flatMap, List.mem_filterMap, List.mem_range]
  constructor
  · rintro ⟨kv, ⟨r, hr, c, hc, hsome⟩, hfst⟩
    by_cases h1 : b (r : Int) (c : Int) = none
    · rw [if_pos h1] at hsome
      by_cases h2 : pieces_flipped b (r : Int) (c : Int) s.value ≠ ∅
      · rw [if_pos h2] at hsome
        obtain rfl : (((r : Int), (c : Int)),
            pieces_flipped b (r : Int) (c : Int) s.value) = kv :=
          Option.some.inj hsome
        subst hfst
        refine ⟨show inB (r : Int) (c : Int) from ⟨by omega, by omega, by omega, by omega⟩, h1, h2⟩
      · rw [if_neg h2] at hsome
        cases hsome
    · rw [if_neg h1] at hsome
      cases hsome
  · rintro ⟨⟨h1, h2, h3, h4⟩, hempty, hflips⟩
    have hb1 : rc.1.toNat < 8 := by omega
    have hb2 : rc.2.toNat < 8 := by omega
    have e1 : ((rc.1.toNat : Nat) : Int) = rc.1 := Int.toNat_of_nonneg h1
    have e2 : ((rc.2.toNat : Nat) : Int) = rc.2 := Int.toNat_of_nonneg h3
    refine ⟨(rc, pieces_flipped b rc.1 rc.2 s.value),
      ⟨rc.1.toNat, hb1, rc.2.toNat, hb2, ?_⟩, rfl⟩
    rw [e1, e2, if_pos hempty, if_pos hflips]

/-- C3: the keys of the mapping `get_valid_moves` returns are exactly the
in-range empty cells with a non-empty capture set for the colour (so an
occupied cell is never a key), and the mapping is empty exactly when the
colour has no legal move. -/
theorem C3_enumerator_keys (b : BoardF) (s : Symbol) :
    (∀ rc : Int × Int,
      rc ∈ (get_valid_moves b s).map Prod.fst ↔
        inB rc.1 rc.2 ∧ b rc.1 rc.2 = none
          ∧ pieces_flipped b rc.1 rc.2 s.value ≠ ∅)
    ∧ (get_valid_moves b s = [] ↔
        ∀ rc : Int × Int,
          ¬ (inB rc.1 rc.2 ∧ b rc.1 rc.2 = none
              ∧ pieces_flipped b rc.1 rc.2 s.value ≠ ∅)) := by
  refine ⟨mem_get_valid_moves_keys b s, ?_⟩
  constructor
  · intro hnil rc
    rw [← mem_get_valid_moves_keys b s rc, hnil]
    simp
  · intro hall
    rcases h : get_valid_moves b s with _ | ⟨kv, rest⟩
    · rfl
    · exfalso
      have : kv.1 ∈ (get_valid_moves b s).map Prod.fst := by
        rw [h]; exact List.mem_map_of_mem Prod.fst (List.mem_cons_self kv rest)
      exact hall kv.1 ((mem_get_valid_moves_keys b s kv.1).mp this)

/-! ### C4: Black's legal moves on the canonical starting board -/

/-- C4 counterexample: on the starting board built by `Game.__init__`, the
key set of Black's legal moves is NOT `{(2,3),(3,2),(4,5),(5,4)}` (the
position has Black on the main diagonal, so the four openers are the
mirrored cells). -/
theorem C4_start_moves_counterexample :
    ¬ (((get_valid_moves (Game.init Symbol.BLACK).board Symbol.BLACK).map
          Prod.fst).toFinset
        = ({((2 : Int), (3 : Int)), ((3 : Int), (2 : Int)),
            ((4 : Int), (5 : Int)), ((5 : Int), (4 : Int))} :
            Finset (Int × Int))) := by
  decide

/-- C4 (amended): on the starting board built by `Game.__init__`, the key
set of Black's legal moves is exactly `{(2,4),(3,5),(4,2),(5,3)}`, and each
of the four moves has a capture set of size exactly 1. -/
theorem C4_start_moves :
    ((get_valid_moves (Game.init Symbol.BLACK).board Symbol.BLACK).map
        Prod.fst
      = [((2 : Int), (4 : Int)), ((3 : Int), (5 : Int)),
         ((4 : Int), (2 : Int)), ((5 : Int), (3 : Int))])
    ∧ ∀ kv ∈ get_valid_moves (Game.init Symbol.BLACK).board Symbol.BLACK,
        kv.2.card = 1 := by
  decide

/-! ### Counting: the board projections used by `_find_winner` -/

theorem mem_grid (p : Int × Int) : p ∈ grid ↔ inB p.1 p.2 := by
  unfold grid inB
  rw [Finset.mem_product, Finset.mem_Icc, Finset.mem_Icc]
  omega

/-- Counting a pointwise-updated board: if the two predicates agree on every
grid cell except `p0`, where the new one holds and the old one fails, the
new count is the old count plus one. -/
theorem card_filter_flip (P Q : Int × Int → Prop) [DecidablePred P]
    [DecidablePred Q] (p0 : Int × Int) (hp0 : p0 ∈ grid)
    (hoff : ∀ p ∈ grid, p ≠ p0 → (P p ↔ Q p)) (hP : P p0) (hQ : ¬ Q p0) :
    (grid.filter P).card = (grid.filter Q).card + 1 := by
  have h1 : grid.filter P = insert p0 ((grid.erase p0).filter Q) := by
    ext q
    simp only [Finset.mem_filter, Finset.mem_insert, Finset.mem_erase]
    constructor
    · rintro ⟨hq, hPq⟩
      by_cases hqp : q = p0
      · exact Or.inl hqp
      · exact Or.inr ⟨⟨hqp, hq⟩, (hoff q hq hqp).mp hPq⟩
    · rintro (rfl | ⟨⟨hqp, hq⟩, hQq⟩)
      · exact ⟨hp0, hP⟩
      · exact ⟨hq, (hoff q hq hqp).mpr hQq⟩
  have h2 : (grid.erase p0).filter Q = grid.filter Q := by
    ext q
    simp only [Finset.mem_filter, Finset.mem_erase]
    constructor
    · rintro ⟨⟨_, hq⟩, hQq⟩
      exact ⟨hq, hQq⟩
    · rintro ⟨hq, hQq⟩
      refine ⟨⟨?_, hq⟩, hQq⟩
      rintro rfl
      exact hQ hQq
  have h3 : p0 ∉ (grid.erase p0).filter Q := by
    intro h
    exact absurd (Finset.mem_of_mem_filter p0 h) (Finset.not_mem_erase p0 grid)
  rw [h1, Finset.card_insert_of_not_mem h3, h2]

theorem countColor_add_eq (b : BoardF) :
    countColor b 0 + countColor b 1
      = (grid.filter (fun p => b p.1 p.2 = some 0 ∨ b p.1 p.2 = some 1)).card := by
  have hdis : Disjoint (grid.filter (fun p => b p.1 p.2 = some 0))
      (grid.filter (fun p => b p.1 p.2 = some 1)) := by
    rw [Finset.disjoint_filter]
    intro p _ h0 h1
    rw [h0] at h1
    cases h1
  unfold countColor
  rw [Finset.filter_or, Finset.card_union_of_disjoint hdis]

/-- The board written by `Game.move` is the same in both branches. -/
theorem move_board (g : Game) (row col : Int) (flipped : Finset (Int × Int)) :
    (g.move row col flipped).board
      = applyFlips (setCell g.board row col (some g.current.value)) flipped
          g.current.value := by
  unfold Game.move
  dsimp only
  split_ifs <;> rfl

theorem move_moves (g : Game) (row col : Int) (flipped : Finset (Int × Int)) :
    (g.move row col flipped).moves = g.moves + 1 := by
  unfold Game.move
  dsimp only
  split_ifs <;> rfl

theorem Symbol.value_le_one (s : Symbol) : s.value ≤ 1 := by
  cases s <;> decide

/-- A legal update (empty in-bounds target, flip set coming from the
Legality Engine) raises the occupied count by exactly one: the target fills
and each captured cell merely changes colour. -/
theorem countOccupied_update (b : BoardF) (row col : Int) (v : Nat)
    (hin : inB row col) (hempty : b row col = none)
    (hflips : ∀ p ∈ pieces_flipped b row col v, b p.1 p.2 = some (1 - v)) :
    countOccupied
        (applyFlips (setCell b row col (some v)) (pieces_flipped b row col v) v)
      = countOccupied b + 1 := by
  unfold countOccupied
  refine card_filter_flip _ _ (row, col) ((mem_grid _).mpr hin) ?_ ?_ ?_
  · intro p _ hne
    unfold applyFlips setCell
    by_cases hf : p ∈ pieces_flipped b row col v
    · rw [if_pos hf]
      have := hflips p hf
      constructor <;> intro <;> simp [this]
    · rw [if_neg hf]
      have hnc : ¬ (p.1 = row ∧ p.2 = col) := by
        intro ⟨e1, e2⟩
        exact hne (Prod.ext e1 e2)
      rw [if_neg hnc]
  · have hnotin : (row, col) ∉ pieces_flipped b row col v := by
      intro h
      exact (mem_pieces_flipped h).2.2.2 rfl
    unfold applyFlips setCell
    rw [if_neg hnotin, if_pos ⟨rfl, rfl⟩]
    simp
  · simp [hempty]

/-- A legal update raises the total Black + White count by exactly one. -/
theorem countBW_update (b : BoardF) (row col : Int) (v : Nat) (hv : v ≤ 1)
    (hin : inB row col) (hempty : b row col = none)
    (hflips : ∀ p ∈ pieces_flipped b row col v, b p.1 p.2 = some (1 - v)) :
    countColor
        (applyFlips (setCell b row col (some v)) (pieces_flipped b row col v) v) 0
      + countColor
        (applyFlips (setCell b row col (some v)) (pieces_flipped b row col v) v) 1
      = countColor b 0 + countColor b 1 + 1 := by
  rw [countColor_add_eq, countColor_add_eq]
  refine card_filter_flip _ _ (row, col) ((mem_grid _).mpr hin) ?_ ?_ ?_
  · intro p _ hne
    unfold applyFlips setCell
    by_cases hf : p ∈ pieces_flipped b row col v
    · rw [if_pos hf]
      have := hflips p hf
      rw [this]
      interval_cases v <;> simp
    · rw [if_neg hf]
      have hnc : ¬ (p.1 = row ∧ p.2 = col) := by
        intro ⟨e1, e2⟩
        exact hne (Prod.ext e1 e2)
      rw [if_neg hnc]
  · have hnotin : (row, col) ∉ pieces_flipped b row col v := by
      intro h
      exact (mem_pieces_flipped h).2.2.2 rfl
    unfold applyFlips setCell
    rw [if_neg hnotin, if_pos ⟨rfl, rfl⟩]
    interval_cases v <;> simp
  · simp [hempty]

/-! ### C6: conservation under `Game.move` -/

theorem legalMoveB_iff {b : BoardF} {v : Nat} {r c : Int} :
    legalMoveB b v r c = true ↔
      inB r c ∧ b r c = none ∧ pieces_flipped b r c v ≠ ∅ := by
  unfold legalMoveB
  simp [Bool.and_eq_true, decide_eq_true_eq, and_assoc]

/-- C6 counterexample: Black's legal opening move (2,4) on the starting
board has a 1-cell capture set, yet the occupied-cell count rises from 4 to
5, not to 4 + (1 + 1): captured cells were already occupied, so the claimed
increase of `1 + |captureSet|` is wrong whenever the capture set is
non-empty. -/
theorem C6_conservation_counterexample :
    legalMoveB (Game.init Symbol.BLACK).board
        (Game.init Symbol.BLACK).current.value 2 4 = true
    ∧ countOccupied ((Game.init Symbol.BLACK).move 2 4
          (pieces_flipped (Game.init Symbol.BLACK).board 2 4
            (Game.init Symbol.BLACK).current.value)).board
      ≠ countOccupied (Game.init Symbol.BLACK).board
        + (1 + (pieces_flipped (Game.init Symbol.BLACK).board 2 4
              (Game.init Symbol.BLACK).current.value).card) := by
  constructor
  · decide
  · decide

theorem move_counts (g : Game) (row col : Int)
    (hin : inB row col) (hempty : g.board row col = none) :
    countOccupied (g.move row col
        (pieces_flipped g.board row col g.current.value)).board
      = countOccupied g.board + 1
    ∧ countColor (g.move row col
          (pieces_flipped g.board row col g.current.value)).board 0
        + countColor (g.move row col
            (pieces_flipped g.board row col g.current.value)).board 1
      = countColor g.board 0 + countColor g.board 1 + 1 := by
  rw [move_board]
  have hflips : ∀ p ∈ pieces_flipped g.board row col g.current.value,
      g.board p.1 p.2 = some (1 - g.current.value) :=
    fun p hp => (mem_pieces_flipped hp).2.1
  exact ⟨countOccupied_update g.board row col g.current.value hin hempty hflips,
    countBW_update g.board row col g.current.value
      (Symbol.value_le_one g.current) hin hempty hflips⟩

theorem playLegal_counts (ms : List (Int × Int)) : ∀ (g g' : Game),
    playLegal g ms = some g' →
    countColor g'.board 0 + countColor g'.board 1
      = countColor g.board 0 + countColor g.board 1 + ms.length := by
  induction ms with
  | nil =>
    intro g g' h
    obtain rfl : g = g' := Option.some.inj h
    simp [playLegal]
  | cons m rest ih =>
    intro g g' h
    obtain ⟨r, c⟩ := m
    unfold playLegal at h
    by_cases hL : legalMoveB g.board g.current.value r c = true
    · rw [if_pos hL] at h
      obtain ⟨hin, hempty, _⟩ := legalMoveB_iff.mp hL
      have h1 := (move_counts g r c hin hempty).2
      have h2 := ih _ _ h
      rw [h2, h1]
      simp only [List.length_cons]
      omega
    · rw [if_neg hL] at h
      cases h

/-- C6 (amended): applying a legal move (in-range empty target whose capture
set is the Legality Engine's non-empty flip set for the current colour)
raises the occupied-cell count by exactly 1 — the captured cells were
already occupied — and raises the Black + White total by exactly 1, so that
total never decreases across any sequence of legal moves. -/
theorem C6_conservation :
    (∀ (g : Game) (row col : Int) (flipped : Finset (Int × Int)),
      inB row col → g.board row col = none →
      flipped = pieces_flipped g.board row col g.current.value →
      flipped ≠ ∅ →
      countOccupied (g.move row col flipped).board = countOccupied g.board + 1
      ∧ countColor (g.move row col flipped).board Symbol.BLACK.value
          + countColor (g.move row col flipped).board Symbol.WHITE.value
        = countColor g.board Symbol.BLACK.value
          + countColor g.board Symbol.WHITE.value + 1)
    ∧ (∀ (g g' : Game) (ms : List (Int × Int)),
        playLegal g ms = some g' →
        countColor g.board Symbol.BLACK.value
            + countColor g.board Symbol.WHITE.value
          ≤ countColor g'.board Symbol.BLACK.value
            + countColor g'.board Symbol.WHITE.value) := by
  constructor
  · intro g row col flipped hin hempty hflip _
    subst hflip
    exact move_counts g row col hin hempty
  · intro g g' ms h
    have := playLegal_counts ms g g' h
    simp only [show Symbol.BLACK.value = 0 from rfl,
      show Symbol.WHITE.value = 1 from rfl]
    omega

theorem C6_conservation_witness :
    (inB 2 4
      ∧ (Game.init Symbol.BLACK).board 2 4 = none
      ∧ pieces_flipped (Game.init Symbol.BLACK).board 2 4
          (Game.init Symbol.BLACK).current.value ≠ ∅
      ∧ countOccupied ((Game.init Symbol.BLACK).move 2 4
            (pieces_flipped (Game.init Symbol.BLACK).board 2 4
              (Game.init Symbol.BLACK).current.value)).board
          = countOccupied (Game.init Symbol.BLACK).board + 1)
    ∧ (∃ g' : Game,
        playLegal (Game.init Symbol.BLACK) [((2 : Int), (4 : Int))] = some g'
        ∧ countColor (Game.init Symbol.BLACK).board Symbol.BLACK.value
            + countColor (Game.init Symbol.BLACK).board Symbol.WHITE.value
          ≤ countColor g'.board Symbol.BLACK.value
            + countColor g'.board Symbol.WHITE.value) := by
  have hs : (playLegal (Game.init Symbol.BLACK)
      [((2 : Int), (4 : Int))]).isSome = true := by decide
  have hplay := (Option.some_get hs).symm
  refine ⟨⟨by decide, by decide, by decide, ?_⟩,
    ⟨(playLegal (Game.init Symbol.BLACK) [((2 : Int), (4 : Int))]).get hs,
      hplay, C6_conservation.2 _ _ _ hplay⟩⟩
  exact (C6_conservation.1 (Game.init Symbol.BLACK) 2 4
    (pieces_flipped (Game.init Symbol.BLACK).board 2 4
      (Game.init Symbol.BLACK).current.value)
    (by decide) (by decide) rfl (by decide)).1

/-! ### C7: termination after 60 legal moves -/

theorem playLegal_moves (ms : List (Int × Int)) : ∀ (g g' : Game),
    playLegal g ms = some g' → g'.moves = g.moves + ms.length := by
  induction ms with
  | nil =>
    intro g g' h
    obtain rfl : g = g' := Option.some.inj h
    simp
  | cons m rest ih =>
    intro g g' h
    obtain ⟨r, c⟩ := m
    unfold playLegal at h
    by_cases hL : legalMoveB g.board g.current.value r c = true
    · rw [if_pos hL] at h
      have := ih _ _ h
      rw [this, move_moves]
      simp only [List.length_cons]
      omega
    · rw [if_neg hL] at h
      cases h

theorem colorSwap_none (b : BoardF) (x y : Int) :
    colorSwap b x y = none ↔ b x y = none := by
  unfold colorSwap
  rcases h : b x y with _ | _ | _ | v <;> simp

theorem colorSwap_zero (b : BoardF) (x y : Int) :
    colorSwap b x y = some 0 ↔ b x y = some 1 := by
  unfold colorSwap
  rcases h : b x y with _ | _ | _ | v <;> simp

theorem colorSwap_one (b : BoardF) (x y : Int) :
    colorSwap b x y = some 1 ↔ b x y = some 0 := by
  unfold colorSwap
  rcases h : b x y with _ | _ | _ | v <;> simp

theorem collectRun_swap (b : BoardF) (dr dc : Int) :
    ∀ (fuel : Nat) (row col : Int),
      collectRun (colorSwap b) 0 dr dc fuel row col
        = collectRun b 1 dr dc fuel row col := by
  intro fuel
  induction fuel with
  | zero => intro row col; rfl
  | succ n ih =>
    intro row col
    rw [collectRun, collectRun]
    by_cases h : inB row col ∧ b row col = some 1
    · rw [if_pos ⟨h.1, (colorSwap_zero b row col).mpr h.2⟩, if_pos h, ih]
    · have h' : ¬ (inB row col ∧ colorSwap b row col = some 0) := by
        intro ⟨h1, h2⟩
        exact h ⟨h1, (colorSwap_zero b row col).mp h2⟩
      rw [if_neg h', if_neg h]

theorem dirFlips_swap (b : BoardF) (r c : Int) (dr dc : Int) :
    dirFlips (colorSwap b) r c 1 dr dc = dirFlips b r c 0 dr dc := by
  unfold dirFlips
  dsimp only
  by_cases h1 : inB (r + dr) (c + dc)
  · rw [if_neg (not_not_intro h1), if_neg (not_not_intro h1)]
    by_cases h2 : b (r + dr) (c + dc) = some 1
    · rw [if_neg (not_not_intro ((colorSwap_zero b _ _).mpr h2)),
        if_neg (not_not_intro h2), collectRun_swap]
      by_cases h3 : inB (collectRun b 1 dr dc 8 (r + dr) (c + dc)).2.1
            (collectRun b 1 dr dc 8 (r + dr) (c + dc)).2.2
          ∧ b (collectRun b 1 dr dc 8 (r + dr) (c + dc)).2.1
              (collectRun b 1 dr dc 8 (r + dr) (c + dc)).2.2 = some 0
      · rw [if_pos ⟨h3.1, (colorSwap_one b _ _).mpr h3.2⟩, if_pos h3]
      · have h3' : ¬ (inB (collectRun b 1 dr dc 8 (r + dr) (c + dc)).2.1
              (collectRun b 1 dr dc 8 (r + dr) (c + dc)).2.2
            ∧ colorSwap b (collectRun b 1 dr dc 8 (r + dr) (c + dc)).2.1
                (collectRun b 1 dr dc 8 (r + dr) (c + dc)).2.2 = some 1) := by
          intro ⟨ha, hb⟩
          exact h3 ⟨ha, (colorSwap_one b _ _).mp hb⟩
        rw [if_neg h3', if_neg h3]
    · have h2' : colorSwap b (r + dr) (c + dc) ≠ some 0 := by
        intro hx
        exact h2 ((colorSwap_zero b _ _).mp hx)
      rw [if_pos h2', if_pos h2]
  · rw [if_pos h1, if_pos h1]

/-- C9: for every board and in-bounds coordinate, Black's capture set equals
White's capture set on the colour-swapped board. -/
theorem C9_symmetry (b : BoardF) (r c : Int) (hin : inB r c) :
    pieces_flipped b r c Symbol.BLACK.value
      = pieces_flipped (colorSwap b) r c Symbol.WHITE.value := by
  show pieces_flipped b r c 0 = pieces_flipped (colorSwap b) r c 1
  unfold pieces_flipped
  by_cases h0 : b r c = none
  · rw [if_neg (not_not_intro h0),
      if_neg (not_not_intro ((colorSwap_none b r c).mpr h0))]
    have hfun : (fun (acc : Finset (Int × Int)) (d : Int × Int) =>
          acc ∪ dirFlips (colorSwap b) r c 1 d.1 d.2)
        = (fun (acc : Finset (Int × Int)) (d : Int × Int) =>
          acc ∪ dirFlips b r c 0 d.1 d.2) := by
      funext acc d
      rw [dirFlips_swap]
    rw [hfun]
  · rw [if_pos h0, if_pos (fun hx => h0 ((colorSwap_none b r c).mp hx))]

theorem C9_symmetry_witness :
    inB 2 4
    ∧ pieces_flipped (Game.init Symbol.BLACK).board 2 4 Symbol.BLACK.value
      = pieces_flipped (colorSwap (Game.init Symbol.BLACK).board) 2 4
          Symbol.WHITE.value :=
  ⟨by decide, C9_symmetry (Game.init Symbol.BLACK).board 2 4 (by decide)⟩

/-- C8: whenever some corner is a key of the legal-move mapping, the Medium
strategy returns a legal corner move, whatever the random tie-breaking
does. -/
theorem C8_medium_corner (pick : List (Int × Int) → Int × Int)
    (hpick : ∀ l : List (Int × Int), l ≠ [] → pick l ∈ l)
    (board : BoardF) (human_value : Nat)
    (vm : List ((Int × Int) × Finset (Int × Int)))
    (hcorner : ∃ p ∈ CORNERS, p ∈ vm.map Prod.fst) :
    (medium_strategy pick board human_value vm).1 ∈ CORNERS
    ∧ (medium_strategy pick board human_value vm).1 ∈ vm.map Prod.fst := by
  obtain ⟨p, hpC, hpK⟩ := hcorner
  have hvc : CORNERS.filter
      (fun q => decide (q ∈ vm.map Prod.fst)) ≠ [] := by
    intro hnil
    have : p ∈ CORNERS.filter (fun q => decide (q ∈ vm.map Prod.fst)) :=
      List.mem_filter.mpr ⟨hpC, by simpa using hpK⟩
    rw [hnil] at this
    cases this
  unfold medium_strategy
  dsimp only
  rw [if_pos hvc]
  have hmem := hpick _ hvc
  have := List.mem_filter.mp hmem
  exact ⟨this.1, by simpa using this.2⟩

theorem C8_medium_corner_witness :
    (∃ p ∈ CORNERS,
      p ∈ ([(((0 : Int), (0 : Int)), ({((1 : Int), (1 : Int))} : Finset (Int × Int)))].map
        Prod.fst))
    ∧ (medium_strategy (fun l => l.headD (0, 0)) (fun _ _ => none) 1
          [(((0 : Int), (0 : Int)), ({((1 : Int), (1 : Int))} : Finset (Int × Int)))]).1
        ∈ CORNERS
    ∧ (medium_strategy (fun l => l.headD (0, 0)) (fun _ _ => none) 1
          [(((0 : Int), (0 : Int)), ({((1 : Int), (1 : Int))} : Finset (Int × Int)))]).1
        ∈ ([(((0 : Int), (0 : Int)), ({((1 : Int), (1 : Int))} : Finset (Int × Int)))].map
            Prod.fst) := by
  refine ⟨⟨(0, 0), by decide, by decide⟩, ?_⟩
  exact C8_medium_corner (fun l => l.headD (0, 0))
    (fun l hl => by
      cases l with
      | nil => exact absurd rfl hl
      | cons a t => exact List.mem_cons_self a t)
    (fun _ _ => none) 1 _ ⟨(0, 0), by decide, by decide⟩

/-- C2 counterexample: querying the Legality Engine at the out-of-range
coordinate (8, 0) on the (8×8) starting board raises `IndexError` instead of
being rejected with an empty capture set: the engine bound-checks every
walk step, but not the target cell itself. -/
theorem C2_out_of_range_counterexample :
    pieces_flippedPy startRows 8 0 Symbol.BLACK.value = .error () := rfl

theorem pyGetCell_ok (b : List (List (Option Nat))) (hlen : b.length = 8)
    (hrows : ∀ row ∈ b, row.length = 8) (r c : Int) (hin : inB r c) :
    ∃ cell, pyGetCell b r c = .ok cell := by
  obtain ⟨h1, h2, h3, h4⟩ := hin
  have hr : r.toNat < b.length := by omega
  have hidx : pyIndex b.length r = some r.toNat := by
    unfold pyIndex
    rw [if_pos ⟨h1, by omega⟩]
  unfold pyGetCell pyGet
  rw [hidx]
  simp only [Option.some_bind]
  rw [List.get?_eq_get hr]
  dsimp only
  have hmem : b.get ⟨r.toNat, hr⟩ ∈ b := List.get_mem b r.toNat hr
  have hlenr : (b.get ⟨r.toNat, hr⟩).length = 8 := hrows _ hmem
  have hc : c.toNat < (b.get ⟨r.toNat, hr⟩).length := by omega
  have hidxc : pyIndex (b.get ⟨r.toNat, hr⟩).length c = some c.toNat := by
    unfold pyIndex
    rw [if_pos ⟨h3, by omega⟩]
  rw [hidxc]
  simp only [Option.some_bind]
  rw [List.get?_eq_get hc]
  exact ⟨_, rfl⟩

theorem collectRunPy_ok (b : List (List (Option Nat))) (hlen : b.length = 8)
    (hrows : ∀ row ∈ b, row.length = 8) (opp : Nat) (dr dc : Int) :
    ∀ (fuel : Nat) (row col : Int),
      ∃ res, collectRunPy b opp dr dc fuel row col = .ok res := by
  intro fuel
  induction fuel with
  | zero => intro row col; exact ⟨_, rfl⟩
  | succ n ih =>
    intro row col
    unfold collectRunPy
    by_cases hb : inB row col
    · rw [if_pos hb]
      obtain ⟨cell, hcell⟩ := pyGetCell_ok b hlen hrows row col hb
      rw [hcell]
      dsimp only
      by_cases hc : cell = some opp
      · rw [if_pos hc]
        obtain ⟨res, hres⟩ := ih (row + dr) (col + dc)
        rw [hres]
        dsimp only
        exact ⟨_, rfl⟩
      · rw [if_neg hc]
        exact ⟨_, rfl⟩
    · rw [if_neg hb]
      exact ⟨_, rfl⟩

theorem dirFlipsPy_ok (b : List (List (Option Nat))) (hlen : b.length = 8)
    (hrows : ∀ row ∈ b, row.length = 8) (r c : Int) (pv : Nat) (dr dc : Int) :
    ∃ s, dirFlipsPy b r c pv dr dc = .ok s := by
  unfold dirFlipsPy
  dsimp only
  by_cases hb : inB (r + dr) (c + dc)
  · rw [if_neg (not_not_intro hb)]
    obtain ⟨cell, hcell⟩ := pyGetCell_ok b hlen hrows _ _ hb
    rw [hcell]
    dsimp only
    by_cases hc : cell ≠ some (1 - pv)
    · rw [if_pos hc]
      exact ⟨_, rfl⟩
    · rw [if_neg hc]
      obtain ⟨res, hres⟩ := collectRunPy_ok b hlen hrows (1 - pv) dr dc 8
        (r + dr) (c + dc)
      rw [hres]
      dsimp only
      by_cases hb2 : inB res.2.1 res.2.2
      · rw [if_pos hb2]
        obtain ⟨cell2, hcell2⟩ := pyGetCell_ok b hlen hrows _ _ hb2
        rw [hcell2]
        dsimp only
        by_cases hc2 : cell2 = some pv
        · rw [if_pos hc2]; exact ⟨_, rfl⟩
        · rw [if_neg hc2]; exact ⟨_, rfl⟩
      · rw [if_neg hb2]
        exact ⟨_, rfl⟩
  · rw [if_pos hb]
    exact ⟨_, rfl⟩

theorem unionDirsPy_ok (b : List (List (Option Nat))) (hlen : b.length = 8)
    (hrows : ∀ row ∈ b, row.length = 8) (r c : Int) (pv : Nat) :
    ∀ (ds : List (Int × Int)) (acc : Finset (Int × Int)),
      ∃ s, unionDirsPy b r c pv ds acc = .ok s := by
  intro ds
  induction ds with
  | nil => intro acc; exact ⟨_, rfl⟩
  | cons d rest ih =>
    intro acc
    unfold unionDirsPy
    obtain ⟨f, hf⟩ := dirFlipsPy_ok b hlen hrows r c pv d.1 d.2
    rw [hf]
    dsimp only
    exact ih (acc ∪ f)

/-- C2 (amended): every step of the directional walks is bounds-checked, so
on an 8×8 board a legality query at an IN-RANGE coordinate never raises; but
the target cell's own read is not bounds-checked, so an out-of-range target
is not rejected defensively: a row or column outside `[-8, 8)` raises
`IndexError` (see the counterexample), and one in `[-8, -1]` wraps around to
the opposite side of the board. -/
theorem C2_in_range_no_exception (b : List (List (Option Nat)))
    (hlen : b.length = 8) (hrows : ∀ row ∈ b, row.length = 8)
    (r c : Int) (pv : Nat) (hin : inB r c) :
    ∃ s, pieces_flippedPy b r c pv = .ok s := by
  unfold pieces_flippedPy
  obtain ⟨cell, hcell⟩ := pyGetCell_ok b hlen hrows r c hin
  rw [hcell]
  dsimp only
  by_cases hc : cell ≠ none
  · rw [if_pos hc]
    exact ⟨_, rfl⟩
  · rw [if_neg hc]
    exact unionDirsPy_ok b hlen hrows r c pv dirs ∅

theorem C2_in_range_no_exception_witness :
    startRows.length = 8
    ∧ (∀ row ∈ startRows, row.length = 8)
    ∧ inB 2 4
    ∧ ∃ s, pieces_flippedPy startRows 2 4 Symbol.BLACK.value = .ok s :=
  ⟨by decide, by decide, by decide,
    C2_in_range_no_exception startRows (by decide) (by decide) 2 4
      Symbol.BLACK.value (by decide)⟩

theorem dirs_unit : ∀ d ∈ dirs, unitDir d.1 d.2 := by
  intro d hd
  unfold dirs at hd
  simp only [List.mem_cons, List.not_mem_nil, or_false] at hd
  rcases hd with rfl | rfl | rfl | rfl | rfl | rfl | rfl | rfl <;>
    (unfold unitDir; norm_num)

theorem oppRunUpTo_mono {b : BoardF} {r c dr dc : Int} {opp : Nat}
    {j m : Nat} (hjm : j ≤ m) (h : oppRunUpTo b r c dr dc opp m) :
    oppRunUpTo b r c dr dc opp j :=
  fun k hk h1 => h k (le_trans hk hjm) h1

/-- No opponent run of length 8 exists when the target is on the board:
the walk would need 9 consecutive on-board cells on one line. -/
theorem oppRunUpTo_lt_eight {b : BoardF} {r c dr dc : Int} {opp : Nat}
    (hin : inB r c) (hdir : unitDir dr dc)
    (h : oppRunUpTo b r c dr dc opp 8) : False := by
  obtain ⟨h8, _⟩ := h 8 le_rfl (by omega)
  obtain ⟨hr0, hr8, hc0, hc8⟩ := hin
  unfold stepCell inB at h8
  dsimp only at h8
  push_cast at h8
  obtain ⟨e1, e2, e3, e4⟩ := h8
  rcases hdir with (hd | hd) | ⟨hd1, hd2 | hd2⟩ <;> subst_vars <;> omega

theorem runLen_le (b : BoardF) (r c dr dc : Int) (opp : Nat) :
    runLen b r c dr dc opp ≤ 8 :=
  Nat.findGreatest_le 8

theorem runLen_spec (b : BoardF) (r c dr dc : Int) (opp : Nat) :
    oppRunUpTo b r c dr dc opp (runLen b r c dr dc opp) :=
  Nat.findGreatest_spec (Nat.zero_le 8) (fun k hk h1 => by omega)

theorem le_runLen {b : BoardF} {r c dr dc : Int} {opp : Nat} {j : Nat}
    (hj : j ≤ 8) (h : oppRunUpTo b r c dr dc opp j) :
    j ≤ runLen b r c dr dc opp :=
  Nat.le_findGreatest hj h

/-- If the run of the first `j` cells cannot be extended, the maximal run
length is exactly `j`. -/
theorem runLen_eq_of_stop {b : BoardF} {r c dr dc : Int} {opp : Nat}
    {j : Nat} (hj : j ≤ 8) (hrun : oppRunUpTo b r c dr dc opp j)
    (hstop : ¬ (inB (stepCell r c dr dc (j + 1)).1 (stepCell r c dr dc (j + 1)).2
      ∧ b (stepCell r c dr dc (j + 1)).1 (stepCell r c dr dc (j + 1)).2
        = some opp)) :
    runLen b r c dr dc opp = j := by
  have h1 : j ≤ runLen b r c dr dc opp := le_runLen hj hrun
  by_contra hne
  have h2 : j + 1 ≤ runLen b r c dr dc opp := by omega
  exact hstop (runLen_spec b r c dr dc opp (j + 1) h2 (by omega))

theorem stepCell_succ (r c dr dc : Int) (j : Nat) :
    ((stepCell r c dr dc j).1 + dr, (stepCell r c dr dc j).2 + dc)
      = stepCell r c dr dc (j + 1) := by
  unfold stepCell
  dsimp only
  refine Prod.ext ?_ ?_ <;> (dsimp only; push_cast; ring)

theorem oppRunUpTo_extend {b : BoardF} {r c dr dc : Int} {opp : Nat}
    {j : Nat} (hrun : oppRunUpTo b r c dr dc opp j)
    (hgood : inB (stepCell r c dr dc (j + 1)).1 (stepCell r c dr dc (j + 1)).2
      ∧ b (stepCell r c dr dc (j + 1)).1 (stepCell r c dr dc (j + 1)).2
        = some opp) :
    oppRunUpTo b r c dr dc opp (j + 1) := by
  intro k hk h1
  rcases Nat.lt_or_ge k (j + 1) with hlt | hge
  · exact hrun k (by omega) h1
  · have : k = j + 1 := by omega
    rw [this]
    exact hgood

/-- The characterisation of the while-loop: started at cell `j + 1` after a
valid opponent run of length `j`, with fuel `8 - j`, it collects exactly the
rest of the maximal run and stops at the cell just past it. -/
theorem collectRun_spec {b : BoardF} {r c dr dc : Int} {opp : Nat}
    (hin : inB r c) (hdir : unitDir dr dc) :
    ∀ (fuel j : Nat), j + fuel = 8 → oppRunUpTo b r c dr dc opp j →
      collectRun b opp dr dc fuel (stepCell r c dr dc (j + 1)).1
          (stepCell r c dr dc (j + 1)).2
        = ((List.range (runLen b r c dr dc opp - j)).map
              (fun k => stepCell r c dr dc (j + k + 1)),
           (stepCell r c dr dc (runLen b r c dr dc opp + 1)).1,
           (stepCell r c dr dc (runLen b r c dr dc opp + 1)).2) := by
  intro fuel
  induction fuel with
  | zero =>
    intro j hj hrun
    exfalso
    have : j = 8 := by omega
    rw [this] at hrun
    exact oppRunUpTo_lt_eight hin hdir hrun
  | succ f ih =>
    intro j hj hrun
    rw [collectRun]
    by_cases hgood : inB (stepCell r c dr dc (j + 1)).1
          (stepCell r c dr dc (j + 1)).2
        ∧ b (stepCell r c dr dc (j + 1)).1 (stepCell r c dr dc (j + 1)).2
          = some opp
    · rw [if_pos hgood]
      have hrun1 := oppRunUpTo_extend hrun hgood
      have hle : j + 1 ≤ runLen b r c dr dc opp := le_runLen (by omega) hrun1
      have hrec := ih (j + 1) (by omega) hrun1
      have hpos1 : (stepCell r c dr dc (j + 1)).1 + dr
          = (stepCell r c dr dc (j + 1 + 1)).1 := by
        rw [← stepCell_succ r c dr dc (j + 1)]
      have hpos2 : (stepCell r c dr dc (j + 1)).2 + dc
          = (stepCell r c dr dc (j + 1 + 1)).2 := by
        rw [← stepCell_succ r c dr dc (j + 1)]
      rw [hpos1, hpos2, hrec]
      dsimp only
      have hsplit : runLen b r c dr dc opp - j
          = (runLen b r c dr dc opp - (j + 1)) + 1 := by omega
      rw [hsplit, List.range_succ_eq_map, List.map_cons, List.map_map]
      refine congrArg (fun l => ((_ : Int × Int) :: l, _)) ?_
      refine List.map_congr_left (fun k _ => ?_)
      show stepCell r c dr dc (j + 1 + k + 1) = stepCell r c dr dc (j + (k + 1) + 1)
      congr 1
      omega
    · rw [if_neg hgood]
      have hn : runLen b r c dr dc opp = j :=
        runLen_eq_of_stop (by omega) hrun hgood
      rw [hn, Nat.sub_self, List.range_zero, List.map_nil]

/-- The Legality Engine's per-direction flips equal the specification's
per-direction capture set. -/
theorem dirFlips_eq_spec {b : BoardF} {r c : Int} {pv : Nat} {dr dc : Int}
    (hin : inB r c) (hdir : unitDir dr dc) :
    dirFlips b r c pv dr dc = dirCaptureSpec b r c dr dc pv := by
  have hstep1 : stepCell r c dr dc 1 = (r + dr, c + dc) := by
    unfold stepCell
    refine Prod.ext ?_ ?_ <;> (dsimp only; push_cast; ring)
  unfold dirFlips dirCaptureSpec
  dsimp only
  by_cases h1 : inB (r + dr) (c + dc)
  · rw [if_neg (not_not_intro h1)]
    by_cases h2 : b (r + dr) (c + dc) = some (1 - pv)
    · rw [if_neg (not_not_intro h2)]
      have hrun0 : oppRunUpTo b r c dr dc (1 - pv) 0 := by
        intro k hk h1k
        omega
      have hrec := collectRun_spec hin hdir 8 0 (by omega) hrun0
      rw [show (0 : Nat) + 1 = 1 from rfl, hstep1] at hrec
      dsimp only at hrec
      rw [hrec]
      dsimp only
      rw [Nat.sub_zero]
      by_cases h3 : inB (stepCell r c dr dc (runLen b r c dr dc (1 - pv) + 1)).1
            (stepCell r c dr dc (runLen b r c dr dc (1 - pv) + 1)).2
          ∧ b (stepCell r c dr dc (runLen b r c dr dc (1 - pv) + 1)).1
              (stepCell r c dr dc (runLen b r c dr dc (1 - pv) + 1)).2 = some pv
      · rw [if_pos h3, if_pos h3]
        refine congrArg List.toFinset (List.map_congr_left (fun k _ => ?_))
        show stepCell r c dr dc (0 + k + 1) = stepCell r c dr dc (k + 1)
        congr 1
        omega
      · rw [if_neg h3, if_neg h3]
    · rw [if_pos h2]
      have hstop : ¬ (inB (stepCell r c dr dc (0 + 1)).1
            (stepCell r c dr dc (0 + 1)).2
          ∧ b (stepCell r c dr dc (0 + 1)).1 (stepCell r c dr dc (0 + 1)).2
            = some (1 - pv)) := by
        rw [show (0 : Nat) + 1 = 1 from rfl, hstep1]
        intro ⟨_, hb⟩
        exact h2 hb
      have hn : runLen b r c dr dc (1 - pv) = 0 :=
        runLen_eq_of_stop (by omega) (fun k hk h1k => by omega) hstop
      rw [hn]
      split_ifs <;> rfl
  · rw [if_pos h1]
    have hstop : ¬ (inB (stepCell r c dr dc (0 + 1)).1
          (stepCell r c dr dc (0 + 1)).2
        ∧ b (stepCell r c dr dc (0 + 1)).1 (stepCell r c dr dc (0 + 1)).2
          = some (1 - pv)) := by
      rw [show (0 : Nat) + 1 = 1 from rfl, hstep1]
      intro ⟨hb, _⟩
      exact h1 hb
    have hn : runLen b r c dr dc (1 - pv) = 0 :=
      runLen_eq_of_stop (by omega) (fun k hk h1k => by omega) hstop
    rw [hn, show (0 : Nat) + 1 = 1 from rfl, hstep1]
    rw [if_neg (fun hx => h1 hx.1)]

/-- C1: on every 8×8 board, at every in-bounds coordinate and for either
colour, the Legality Engine returns the empty set when the target is
occupied, and otherwise returns exactly the union over the 8 compass
directions of the maximal opponent runs that are terminated on the board by
a cell of the mover's own colour. -/
theorem C1_capture_correct (b : BoardF) (r c : Int) (s : Symbol)
    (hin : inB r c) :
    (b r c ≠ none → pieces_flipped b r c s.value = ∅)
    ∧ (b r c = none →
        pieces_flipped b r c s.value = captureSpec b r c s.value) := by
  refine ⟨fun h => pieces_flipped_occupied h, fun h => ?_⟩
  unfold pieces_flipped captureSpec
  rw [if_neg (not_not_intro h)]
  ext p
  rw [mem_foldl_union]
  simp only [Finset.not_mem_empty, false_or, Finset.mem_biUnion,
    List.mem_toFinset]
  constructor
  · rintro ⟨d, hd, hp⟩
    exact ⟨d, hd, by
      rw [← dirFlips_eq_spec hin (dirs_unit d hd)]
      exact hp⟩
  · rintro ⟨d, hd, hp⟩
    exact ⟨d, hd, by
      rw [dirFlips_eq_spec hin (dirs_unit d hd)]
      exact hp⟩

theorem C1_capture_correct_witness :
    inB 2 4
    ∧ ((Game.init Symbol.BLACK).board 2 4 ≠ none →
        pieces_flipped (Game.init Symbol.BLACK).board 2 4 Symbol.BLACK.value = ∅)
    ∧ ((Game.init Symbol.BLACK).board 2 4 = none →
        pieces_flipped (Game.init Symbol.BLACK).board 2 4 Symbol.BLACK.value
          = captureSpec (Game.init Symbol.BLACK).board 2 4 Symbol.BLACK.value) :=
  ⟨by decide,
    C1_capture_correct (Game.init Symbol.BLACK).board 2 4 Symbol.BLACK
      (by decide)⟩

end Othello
